import Mathlib

/-!
# Verification of the Git impact-analysis tool

A shallow embedding of the core of the test-impact analyzer:
the unified-diff parser (`GitOperations.parseDiff`), the test-block
extractor (`TestParser`), the import resolver (`ImportTracker`) and the
impact classifier (`ImpactAnalyzer`), together with theorems settling the
specification claims.

Strings from the source program are modelled as `List Char` so that every
definition is executable by the kernel.  JavaScript regular expressions are
modelled by hand-written matchers that follow the regex semantics
(greedy maximal munch, with the backtracking cases analysed where the
pattern admits them).
-/

namespace GitImpact

/-- Characters of a line or string of the analysed program. -/
abbrev Str := List Char

/-- Model of JS `String.prototype.split(sep)` for a single-character
separator: `"a\nb".split('\n') = ["a","b"]`, `"".split('\n') = [""]`. -/
def splitOnChar (sep : Char) : Str → List Str
  | [] => [[]]
  | c :: cs =>
    match splitOnChar sep cs with
    | [] => if c = sep then [[], []] else [[c]]
    | r :: rs => if c = sep then [] :: r :: rs else (c :: r) :: rs

/-- ASCII decimal digit test, the chars matched by `\d` in a JS regex. -/
def isDigitCh (c : Char) : Bool := '0' ≤ c && c ≤ '9'

/-- Whitespace as matched by `\s` in a JS regex (restricted to the ASCII
whitespace characters, which are the only ones a git diff line contains). -/
def isSpaceCh (c : Char) : Bool :=
  c = ' ' || c = '\t' || c = '\n' || c = '\r' || c = '\x0b' || c = '\x0c'

/-- Line terminators, the characters NOT matched by `.` in a JS regex. -/
def isLineTermCh (c : Char) : Bool :=
  c = '\n' || c = '\r' || c.toNat = 0x2028 || c.toNat = 0x2029

/-- Numeric value of a digit string, as computed by `parseInt` on the
digits captured by `\d+`. -/
def digitsVal (ds : Str) : Nat :=
  ds.foldl (fun n c => n * 10 + (c.toNat - '0'.toNat)) 0

/-- Strip a literal pattern from the front of a character list, the
building block of the regex matchers. -/
def stripLit (pat cs : Str) : Option Str :=
  if pat.isPrefixOf cs then some (cs.drop pat.length) else none

/-- Match `(?:,(\d+))?`, the optional count group of the hunk-header regex
`@@ -(\d+)(?:,(\d+))? \+(\d+)(?:,(\d+))? @@`.  When the group matches, the
continuation starts after its digits; when it does not, the continuation
(a literal `' '`) cannot match at the `','` either, so committing to the
group is equivalent to the regex's backtracking. -/
def matchOptCount (cs : Str) : Option Nat × Str :=
  match cs with
  | ',' :: rest =>
    let ds := rest.takeWhile isDigitCh
    if ds = [] then (none, cs) else (some (digitsVal ds), rest.dropWhile isDigitCh)
  | _ => (none, cs)

/-- Match the hunk-header regex
`@@ -(\d+)(?:,(\d+))? \+(\d+)(?:,(\d+))? @@` at the start of `cs`,
returning `(oldStart, oldCount, newStart, newCount)` with the counts
defaulted to 1 when their group is absent, exactly as
`GitOperations.parseDiff` computes them from the match object. -/
def matchHunkAt (cs : Str) : Option (Nat × Nat × Nat × Nat) :=
  match stripLit "@@ -".toList cs with
  | none => none
  | some r1 =>
    let d1 := r1.takeWhile isDigitCh
    if d1 = [] then none else
    let (oc, r2) := matchOptCount (r1.dropWhile isDigitCh)
    match stripLit " +".toList r2 with
    | none => none
    | some r3 =>
      let d3 := r3.takeWhile isDigitCh
      if d3 = [] then none else
      let (nc, r4) := matchOptCount (r3.dropWhile isDigitCh)
      match stripLit " @@".toList r4 with
      | none => none
      | some _ => some (digitsVal d1, oc.getD 1, digitsVal d3, nc.getD 1)

/-- Model of `line.match(/@@ -(\d+)(?:,(\d+))? \+(\d+)(?:,(\d+))? @@/)`:
an unanchored search tries the pattern at every start position. -/
def findHunk (cs : Str) : Option (Nat × Nat × Nat × Nat) :=
  match matchHunkAt cs with
  | some r => some r
  | none =>
    match cs with
    | [] => none
    | _ :: cs' => findHunk cs'

/-- Model of `line.match(/^---\s+(.+)$/)` (and its `+++` twin), returning
the captured group.  The regex anchors both ends; `\s+` is greedy, and when
the tail after the whitespace is empty the regex backtracks, giving the
capture the last whitespace character (a case that never arises on a real
diff line but is kept for fidelity). -/
def matchMarker (marker line : Str) : Option Str :=
  match stripLit marker line with
  | none => none
  | some r =>
    let ws := r.takeWhile isSpaceCh
    let rest := r.dropWhile isSpaceCh
    if rest ≠ [] then
      if ws.length ≥ 1 && rest.all (fun c => !isLineTermCh c) then some rest else none
    else
      if ws.length ≥ 2 then
        let cap := ws.drop (ws.length - 1)
        if cap.all (fun c => !isLineTermCh c) then some cap else none
      else none

/-- `ChangedFile.changeType` from `src/types`. -/
inductive ChangeType where
  | added
  | modified
  | deleted
deriving DecidableEq

/-- The `ChangedFile` record of `src/types`. -/
structure ChangedFile where
  path : Str
  changeType : ChangeType
  addedLines : List Nat
  deletedLines : List Nat
deriving DecidableEq

/-- The local accumulator state of `GitOperations.parseDiff`'s loop:
the result list built so far plus the per-file accumulator variables. -/
structure DiffState where
  files : List ChangedFile
  currentFile : Option Str
  changeType : ChangeType
  addedLines : List Nat
  deletedLines : List Nat
deriving DecidableEq

/-- The variables of `parseDiff` before the loop starts. -/
def initState : DiffState :=
  { files := [], currentFile := none, changeType := .modified,
    addedLines := [], deletedLines := [] }

/-- Push the current accumulator onto the result list when a path was
established (the `if (currentFile)` guard of `parseDiff`). -/
def flushCurrent (s : DiffState) : List ChangedFile :=
  match s.currentFile with
  | some p =>
    s.files ++ [{ path := p, changeType := s.changeType,
                  addedLines := s.addedLines, deletedLines := s.deletedLines }]
  | none => s.files

/-- The `if (line.startsWith('diff --git'))` branch of `parseDiff`:
flush the previous file and reset the accumulator. -/
def stepDiffGit (s : DiffState) (line : Str) : DiffState :=
  if "diff --git".toList.isPrefixOf line then
    { files := flushCurrent s, currentFile := none, changeType := .modified,
      addedLines := [], deletedLines := [] }
  else s

/-- The `if (line.startsWith('---'))` branch of `parseDiff`. -/
def stepOldMarker (s : DiffState) (line : Str) : DiffState :=
  if "---".toList.isPrefixOf line then
    match matchMarker "---".toList line with
    | some cap =>
      if cap ≠ "/dev/null".toList then { s with currentFile := some cap }
      else { s with changeType := .added }
    | none => s
  else s

/-- The `if (line.startsWith('+++'))` branch of `parseDiff`. -/
def stepNewMarker (s : DiffState) (line : Str) : DiffState :=
  if "+++".toList.isPrefixOf line then
    match matchMarker "+++".toList line with
    | some cap =>
      if cap ≠ "/dev/null".toList then { s with currentFile := some cap }
      else { s with changeType := .deleted }
    | none => s
  else s

/-- The `if (line.startsWith('@@'))` branch of `parseDiff`: decode the
hunk header and record `[oldStart, oldStart+oldCount)` as deleted and
`[newStart, newStart+newCount)` as added. -/
def stepHunk (s : DiffState) (line : Str) : DiffState :=
  if "@@".toList.isPrefixOf line then
    match findHunk line with
    | some (os, oc, ns, nc) =>
      { s with deletedLines := s.deletedLines ++ List.range' os oc,
               addedLines := s.addedLines ++ List.range' ns nc }
    | none => s
  else s

/-- One iteration of `parseDiff`'s loop: the four `if` branches applied in
source order (their guards are mutually exclusive by the lines' first
characters). -/
def processLine (s : DiffState) (line : Str) : DiffState :=
  stepHunk (stepNewMarker (stepOldMarker (stepDiffGit s line) line) line) line

/-- The body of `GitOperations.parseDiff` after the input was split into
lines: fold the loop, then flush the last file. -/
def parseDiffLines (lines : List Str) : List ChangedFile :=
  flushCurrent (lines.foldl processLine initState)

/-- `GitOperations.parseDiff`: split on newlines and process each line. -/
def parseDiff (diff : Str) : List ChangedFile :=
  parseDiffLines (splitOnChar '\n' diff)

/-! ### Branch analysis of `processLine`

The four `if` branches of the loop body are guarded by the prefixes
`"diff --git"`, `"---"`, `"+++"`, `"@@"`, which are pairwise incompatible
because they begin with distinct characters. -/

theorem isPrefixOf_head_ne {a b : Char} {pa pb line : Str} (hab : b ≠ a)
    (h : (a :: pa).isPrefixOf line = true) : (b :: pb).isPrefixOf line = false := by
  cases line with
  | nil => simp [List.isPrefixOf] at h
  | cons c t =>
    simp only [List.isPrefixOf, Bool.and_eq_true, beq_iff_eq] at h
    simp only [List.isPrefixOf, Bool.and_eq_false_iff, beq_eq_false_iff_ne, ne_eq]
    exact Or.inl (h.1 ▸ hab)

theorem stepDiffGit_id {s : DiffState} {line : Str}
    (h : "diff --git".toList.isPrefixOf line = false) : stepDiffGit s line = s := by
  simp only [stepDiffGit, h]
  simp

theorem stepOldMarker_id {s : DiffState} {line : Str}
    (h : "---".toList.isPrefixOf line = false) : stepOldMarker s line = s := by
  simp only [stepOldMarker, h]
  simp

theorem stepNewMarker_id {s : DiffState} {line : Str}
    (h : "+++".toList.isPrefixOf line = false) : stepNewMarker s line = s := by
  simp only [stepNewMarker, h]
  simp

theorem stepHunk_id {s : DiffState} {line : Str}
    (h : "@@".toList.isPrefixOf line = false) : stepHunk s line = s := by
  simp only [stepHunk, h]
  simp

/-- On a line that starts with `"@@"` only the hunk branch can fire. -/
theorem processLine_hunk {s : DiffState} {line : Str}
    (h : "@@".toList.isPrefixOf line = true) :
    processLine s line = stepHunk s line := by
  unfold processLine
  rw [stepDiffGit_id (isPrefixOf_head_ne (by decide) h),
      stepOldMarker_id (isPrefixOf_head_ne (by decide) h),
      stepNewMarker_id (isPrefixOf_head_ne (by decide) h)]

/-- On a line that starts with `"---"` only the old-marker branch fires. -/
theorem processLine_oldMarker {s : DiffState} {line : Str}
    (h : "---".toList.isPrefixOf line = true) :
    processLine s line = stepOldMarker s line := by
  unfold processLine
  rw [stepDiffGit_id (isPrefixOf_head_ne (by decide) h),
      stepNewMarker_id (isPrefixOf_head_ne (by decide) h),
      stepHunk_id (isPrefixOf_head_ne (by decide) h)]

/-- On a line that starts with `"+++"` only the new-marker branch fires. -/
theorem processLine_newMarker {s : DiffState} {line : Str}
    (h : "+++".toList.isPrefixOf line = true) :
    processLine s line = stepNewMarker s line := by
  unfold processLine
  rw [stepDiffGit_id (isPrefixOf_head_ne (by decide) h),
      stepOldMarker_id (isPrefixOf_head_ne (by decide) h),
      stepHunk_id (isPrefixOf_head_ne (by decide) h)]

/-- On a line that starts with `"diff --git"` only the flush branch fires. -/
theorem processLine_diffGit {s : DiffState} {line : Str}
    (h : "diff --git".toList.isPrefixOf line = true) :
    processLine s line = stepDiffGit s line := by
  unfold processLine
  rw [stepOldMarker_id (isPrefixOf_head_ne (by decide) h),
      stepNewMarker_id (isPrefixOf_head_ne (by decide) h),
      stepHunk_id (isPrefixOf_head_ne (by decide) h)]

/-- A line matching none of the four guards leaves the state unchanged. -/
theorem processLine_other {s : DiffState} {line : Str}
    (h1 : "diff --git".toList.isPrefixOf line = false)
    (h2 : "---".toList.isPrefixOf line = false)
    (h3 : "+++".toList.isPrefixOf line = false)
    (h4 : "@@".toList.isPrefixOf line = false) :
    processLine s line = s := by
  unfold processLine
  rw [stepDiffGit_id h1, stepOldMarker_id h2, stepNewMarker_id h3, stepHunk_id h4]

/-- C5: for every parsable hunk header (counts defaulting to 1 when
omitted, which `findHunk` already applies), the parser records as deleted
exactly the line numbers in `[oldStart, oldStart + oldCount)` and as added
exactly those in `[newStart, newStart + newCount)`; consequently every
recorded number lies within its hunk's declared count, and the declared
counts equal the numbers of recorded line numbers. -/
theorem hunk_lines_exact (s : DiffState) (line : Str) (os oc ns nc : Nat)
    (hpre : "@@".toList.isPrefixOf line = true)
    (hparse : findHunk line = some (os, oc, ns, nc)) :
    (processLine s line).deletedLines = s.deletedLines ++ List.range' os oc ∧
    (processLine s line).addedLines = s.addedLines ++ List.range' ns nc ∧
    (∀ j, j ∈ List.range' os oc ↔ os ≤ j ∧ j < os + oc) ∧
    (∀ j, j ∈ List.range' ns nc ↔ ns ≤ j ∧ j < ns + nc) ∧
    (List.range' os oc).length = oc ∧
    (List.range' ns nc).length = nc := by
  rw [processLine_hunk hpre]
  simp only [stepHunk, hpre, if_true, hparse]
  refine ⟨trivial, trivial, fun j => List.mem_range'_1, fun j => List.mem_range'_1,
    List.length_range' _ _ _, List.length_range' _ _ _⟩

/-- Witness for C5: the concrete header `@@ -3,2 +7,4 @@` records deleted
lines 3,4 and added lines 7,8,9,10. -/
theorem hunk_lines_exact_witness :
    (processLine initState "@@ -3,2 +7,4 @@".toList).deletedLines =
      initState.deletedLines ++ List.range' 3 2 ∧
    (processLine initState "@@ -3,2 +7,4 @@".toList).addedLines =
      initState.addedLines ++ List.range' 7 4 := by
  have h := hunk_lines_exact initState "@@ -3,2 +7,4 @@".toList 3 2 7 4
    (by decide) (by decide)
  exact ⟨h.1, h.2.1⟩

/-- C7: a line that begins with `@@` but whose numbers do not match the
hunk-header pattern is skipped without recording anything and without
aborting: the parse of the surrounding lines is exactly the parse with the
malformed line removed, so all files and hunks before and after it are
preserved. -/
theorem malformed_hunk_skipped (pre post : List Str) (line : Str)
    (hpre : "@@".toList.isPrefixOf line = true)
    (hbad : findHunk line = none) :
    parseDiffLines (pre ++ line :: post) = parseDiffLines (pre ++ post) := by
  have hid : ∀ s, processLine s line = s := by
    intro s
    rw [processLine_hunk hpre]
    simp [stepHunk, hpre, hbad]
  unfold parseDiffLines
  rw [List.foldl_append, List.foldl_append, List.foldl_cons, hid]

/-- Witness for C7: inserting the malformed header `@@ bogus @@` into a
well-formed diff leaves the parse unchanged. -/
theorem malformed_hunk_skipped_witness :
    parseDiffLines ["diff --git a.ts a.ts".toList, "--- a.ts".toList,
                    "+++ a.ts".toList, "@@ bogus @@".toList,
                    "@@ -1,2 +3,4 @@".toList] =
    parseDiffLines ["diff --git a.ts a.ts".toList, "--- a.ts".toList,
                    "+++ a.ts".toList, "@@ -1,2 +3,4 @@".toList] :=
  malformed_hunk_skipped
    ["diff --git a.ts a.ts".toList, "--- a.ts".toList, "+++ a.ts".toList]
    ["@@ -1,2 +3,4 @@".toList] "@@ bogus @@".toList (by decide) (by decide)

/-! ### C4: the `ChangedFile` line-set invariant -/

/-- The invariant claimed for every `ChangedFile` record. -/
def fileInv (cf : ChangedFile) : Prop :=
  (cf.changeType = ChangeType.deleted → cf.addedLines = []) ∧
  (cf.changeType = ChangeType.added → cf.deletedLines = [])

/-- The same invariant on the parser's accumulator. -/
def stateInv (s : DiffState) : Prop :=
  (s.changeType = ChangeType.deleted → s.addedLines = []) ∧
  (s.changeType = ChangeType.added → s.deletedLines = [])

/-- Well-formedness of one diff line relative to the state in which the
parser meets it — the shape `git show` itself always emits: a hunk header
seen while the section is classified deleted declares new count 0 (dually
for added), and a `/dev/null` marker arrives only while the opposite
line-set is still empty. -/
def lineOK (s : DiffState) (line : Str) : Bool :=
  (if "@@".toList.isPrefixOf line then
     match findHunk line with
     | some (_, oc, _, nc) =>
       (!(s.changeType == ChangeType.deleted) || (nc == 0)) &&
       (!(s.changeType == ChangeType.added) || (oc == 0))
     | none => true
   else true) &&
  (!(matchMarker "---".toList line == some "/dev/null".toList) ||
    (s.deletedLines == [])) &&
  (!(matchMarker "+++".toList line == some "/dev/null".toList) ||
    (s.addedLines == []))

/-- `lineOK` holding at every step of the parser's loop. -/
def linesOKFrom (s : DiffState) : List Str → Bool
  | [] => true
  | l :: ls => lineOK s l && linesOKFrom (processLine s l) ls

theorem flushCurrent_inv {s : DiffState} (hs : stateInv s)
    (hf : ∀ cf ∈ s.files, fileInv cf) :
    ∀ cf ∈ flushCurrent s, fileInv cf := by
  intro cf hcf
  unfold flushCurrent at hcf
  cases hcur : s.currentFile with
  | none => rw [hcur] at hcf; exact hf cf hcf
  | some p =>
    rw [hcur] at hcf
    rcases List.mem_append.mp hcf with h | h
    · exact hf cf h
    · rcases List.mem_singleton.mp h with rfl
      exact ⟨fun hh => hs.1 hh, fun hh => hs.2 hh⟩

/-- Equation lemmas for the marker and hunk branches. -/
theorem stepOldMarker_dev {s : DiffState} {line : Str}
    (h : "---".toList.isPrefixOf line = true)
    (hm : matchMarker "---".toList line = some "/dev/null".toList) :
    stepOldMarker s line = { s with changeType := ChangeType.added } := by
  unfold stepOldMarker
  rw [if_pos h, hm]
  simp

theorem stepOldMarker_path {s : DiffState} {line cap : Str}
    (h : "---".toList.isPrefixOf line = true)
    (hm : matchMarker "---".toList line = some cap)
    (hne : cap ≠ "/dev/null".toList) :
    stepOldMarker s line = { s with currentFile := some cap } := by
  unfold stepOldMarker
  rw [if_pos h, hm]
  simp [hne]
  intro hcap
  exact absurd hcap (by simpa using hne)

theorem stepOldMarker_none {s : DiffState} {line : Str}
    (hm : matchMarker "---".toList line = none) :
    stepOldMarker s line = s := by
  unfold stepOldMarker
  by_cases h : "---".toList.isPrefixOf line = true
  · rw [if_pos h, hm]
  · rw [if_neg h]

theorem stepNewMarker_dev {s : DiffState} {line : Str}
    (h : "+++".toList.isPrefixOf line = true)
    (hm : matchMarker "+++".toList line = some "/dev/null".toList) :
    stepNewMarker s line = { s with changeType := ChangeType.deleted } := by
  unfold stepNewMarker
  rw [if_pos h, hm]
  simp

theorem stepNewMarker_path {s : DiffState} {line cap : Str}
    (h : "+++".toList.isPrefixOf line = true)
    (hm : matchMarker "+++".toList line = some cap)
    (hne : cap ≠ "/dev/null".toList) :
    stepNewMarker s line = { s with currentFile := some cap } := by
  unfold stepNewMarker
  rw [if_pos h, hm]
  simp [hne]
  intro hcap
  exact absurd hcap (by simpa using hne)

theorem stepNewMarker_none {s : DiffState} {line : Str}
    (hm : matchMarker "+++".toList line = none) :
    stepNewMarker s line = s := by
  unfold stepNewMarker
  by_cases h : "+++".toList.isPrefixOf line = true
  · rw [if_pos h, hm]
  · rw [if_neg h]

theorem stepHunk_some {s : DiffState} {line : Str} {os oc ns nc : Nat}
    (h : "@@".toList.isPrefixOf line = true)
    (hm : findHunk line = some (os, oc, ns, nc)) :
    stepHunk s line =
      { s with deletedLines := s.deletedLines ++ List.range' os oc,
               addedLines := s.addedLines ++ List.range' ns nc } := by
  unfold stepHunk
  rw [if_pos h, hm]

theorem stepHunk_none {s : DiffState} {line : Str}
    (hm : findHunk line = none) :
    stepHunk s line = s := by
  unfold stepHunk
  by_cases h : "@@".toList.isPrefixOf line = true
  · rw [if_pos h, hm]
  · rw [if_neg h]

theorem processLine_good {s : DiffState} {line : Str}
    (hs : stateInv s) (hf : ∀ cf ∈ s.files, fileInv cf)
    (hl : lineOK s line = true) :
    stateInv (processLine s line) ∧
      ∀ cf ∈ (processLine s line).files, fileInv cf := by
  simp only [lineOK, Bool.and_eq_true] at hl
  obtain ⟨⟨hl1, hl2⟩, hl3⟩ := hl
  have hdash : matchMarker "---".toList line = some "/dev/null".toList →
      s.deletedLines = [] := by
    intro hmm
    rw [hmm] at hl2
    simpa using hl2
  have hplus : matchMarker "+++".toList line = some "/dev/null".toList →
      s.addedLines = [] := by
    intro hmm
    rw [hmm] at hl3
    simpa using hl3
  have hhunk : ∀ os oc ns nc, "@@".toList.isPrefixOf line = true →
      findHunk line = some (os, oc, ns, nc) →
      (s.changeType = ChangeType.deleted → nc = 0) ∧
      (s.changeType = ChangeType.added → oc = 0) := by
    intro os oc ns nc hp hfind
    rw [if_pos hp, hfind] at hl1
    simp only [Bool.and_eq_true, Bool.or_eq_true, Bool.not_eq_true',
      beq_iff_eq, beq_eq_false_iff_ne, ne_eq] at hl1
    constructor
    · intro h
      rcases hl1.1 with hne | hz
      · exact absurd h hne
      · exact hz
    · intro h
      rcases hl1.2 with hne | hz
      · exact absurd h hne
      · exact hz
  clear hl1 hl2 hl3
  by_cases h1 : "diff --git".toList.isPrefixOf line = true
  · rw [processLine_diffGit h1]
    simp only [stepDiffGit, h1, if_true]
    exact ⟨⟨fun h => (nomatch h), fun h => (nomatch h)⟩, flushCurrent_inv hs hf⟩
  · by_cases h2 : "---".toList.isPrefixOf line = true
    · rw [processLine_oldMarker h2]
      cases hm : matchMarker "---".toList line with
      | none => rw [stepOldMarker_none hm]; exact ⟨hs, hf⟩
      | some cap =>
        by_cases hdev : cap = "/dev/null".toList
        · subst hdev
          rw [stepOldMarker_dev h2 hm]
          exact ⟨⟨fun h => (nomatch h), fun _ => hdash hm⟩, hf⟩
        · rw [stepOldMarker_path h2 hm hdev]
          exact ⟨⟨fun h => hs.1 h, fun h => hs.2 h⟩, hf⟩
    · by_cases h3 : "+++".toList.isPrefixOf line = true
      · rw [processLine_newMarker h3]
        cases hm : matchMarker "+++".toList line with
        | none => rw [stepNewMarker_none hm]; exact ⟨hs, hf⟩
        | some cap =>
          by_cases hdev : cap = "/dev/null".toList
          · subst hdev
            rw [stepNewMarker_dev h3 hm]
            exact ⟨⟨fun _ => hplus hm, fun h => (nomatch h)⟩, hf⟩
          · rw [stepNewMarker_path h3 hm hdev]
            exact ⟨⟨fun h => hs.1 h, fun h => hs.2 h⟩, hf⟩
      · by_cases h4 : "@@".toList.isPrefixOf line = true
        · rw [processLine_hunk h4]
          cases hfind : findHunk line with
          | none => rw [stepHunk_none hfind]; exact ⟨hs, hf⟩
          | some r =>
            obtain ⟨os, oc, ns, nc⟩ := r
            rw [stepHunk_some h4 hfind]
            have hh := hhunk os oc ns nc h4 hfind
            refine ⟨⟨fun h => ?_, fun h => ?_⟩, hf⟩
            · rw [hs.1 h, hh.1 h]
              simp
            · rw [hs.2 h, hh.2 h]
              simp
        · have hb1 : "diff --git".toList.isPrefixOf line = false :=
            Bool.eq_false_iff.mpr h1
          have hb2 : "---".toList.isPrefixOf line = false :=
            Bool.eq_false_iff.mpr h2
          have hb3 : "+++".toList.isPrefixOf line = false :=
            Bool.eq_false_iff.mpr h3
          have hb4 : "@@".toList.isPrefixOf line = false :=
            Bool.eq_false_iff.mpr h4
          rw [processLine_other hb1 hb2 hb3 hb4]
          exact ⟨hs, hf⟩

theorem foldl_good (lines : List Str) :
    ∀ s : DiffState, stateInv s → (∀ cf ∈ s.files, fileInv cf) →
      linesOKFrom s lines = true →
      stateInv (lines.foldl processLine s) ∧
        ∀ cf ∈ (lines.foldl processLine s).files, fileInv cf := by
  induction lines with
  | nil => intro s hs hf _; exact ⟨hs, hf⟩
  | cons l ls ih =>
    intro s hs hf hok
    simp only [linesOKFrom, Bool.and_eq_true] at hok
    have h := processLine_good hs hf hok.1
    exact ih _ h.1 h.2 hok.2

/-- The diff text refuting C4 as universally stated: a section whose
`+++` marker is `/dev/null` (so it is classified deleted) followed by a
hunk header declaring one new line. -/
def badDiff : Str :=
  "diff --git a.ts a.ts\n--- a.ts\n+++ /dev/null\n@@ -1,1 +1,1 @@".toList

/-- C4 is false as stated over arbitrary parser inputs: on `badDiff` the
parser yields a file with `changeType` deleted and `addedLines = [1]`. -/
theorem changedFile_invariant_ce :
    ¬ (∀ cf ∈ parseDiff badDiff,
        (cf.changeType = ChangeType.deleted → cf.addedLines = []) ∧
        (cf.changeType = ChangeType.added → cf.deletedLines = [])) := by
  decide

/-- C4 (amended): for every diff whose lines are well formed relative to
the parse (`linesOKFrom`) — hunks under a deleted section declare new
count 0, hunks under an added section declare old count 0, and `/dev/null`
markers arrive with the opposite line-set still empty, as `git show`
always emits — every produced `ChangedFile` has empty `addedLines` when
deleted and empty `deletedLines` when added. -/
theorem changedFile_invariant (diff : Str)
    (h : linesOKFrom initState (splitOnChar '\n' diff) = true) :
    ∀ cf ∈ parseDiff diff,
      (cf.changeType = ChangeType.deleted → cf.addedLines = []) ∧
      (cf.changeType = ChangeType.added → cf.deletedLines = []) := by
  have hinit : stateInv initState := ⟨fun h => (nomatch h), fun h => nomatch h⟩
  have hfiles : ∀ cf ∈ initState.files, fileInv cf := by
    intro cf hcf
    exact absurd hcf (List.not_mem_nil cf)
  have hg := foldl_good (splitOnChar '\n' diff) initState hinit hfiles h
  intro cf hcf
  exact flushCurrent_inv hg.1 hg.2 cf hcf

/-- A well-formed deletion diff, as `git show --unified=0 --no-prefix`
emits it. -/
def goodDiff : Str :=
  "diff --git a.ts a.ts\n--- a.ts\n+++ /dev/null\n@@ -1,2 +0,0 @@".toList

/-- Witness for the amended C4: on `goodDiff` the single produced file is
deleted and its `addedLines` is empty. -/
theorem changedFile_invariant_witness :
    ({ path := "a.ts".toList, changeType := ChangeType.deleted,
       addedLines := [], deletedLines := [1, 2] } : ChangedFile).addedLines = [] :=
  (changedFile_invariant goodDiff (by decide)
    { path := "a.ts".toList, changeType := ChangeType.deleted,
      addedLines := [], deletedLines := [1, 2] } (by decide)).1 rfl

/-! ## Test Block Extractor (`TestParser`)

The syntax tree is an external capability (`ts-morph`); we model exactly
the slice of it `TestParser` reads: call expressions with the printed text
of their callee and their argument list, string literals with their
literal value, and any other node with its printed text and children.
Every node carries its 1-based start and end line numbers. -/

inductive TsNode : Type where
  | call (calleeText : String) (text : String) (startLine endLine : Nat)
      (args : List TsNode)
  | strLit (value : String) (text : String) (startLine endLine : Nat)
  | node (text : String) (startLine endLine : Nat) (children : List TsNode)

/-- `node.getText()`. -/
def TsNode.getText : TsNode → String
  | .call _ t _ _ _ => t
  | .strLit _ t _ _ => t
  | .node t _ _ _ => t

/-- `node.getStartLineNumber()`. -/
def TsNode.getStartLineNumber : TsNode → Nat
  | .call _ _ s _ _ => s
  | .strLit _ _ s _ => s
  | .node _ s _ _ => s

/-- `node.getEndLineNumber()`. -/
def TsNode.getEndLineNumber : TsNode → Nat
  | .call _ _ _ e _ => e
  | .strLit _ _ _ e => e
  | .node _ _ e _ => e

/-- `callExpr.getExpression().getText()` (empty for non-calls, which the
walker never passes to it). -/
def TsNode.expressionText : TsNode → String
  | .call c _ _ _ _ => c
  | _ => ""

/-- The `TestInfo` record of `src/types`. -/
structure TestInfo where
  name : String
  filePath : Str
  startLine : Nat
  endLine : Nat
deriving DecidableEq

/-- `TestParser.isTestCall`: the five recognized callee texts. -/
def isTestCall (expressionText : String) : Bool :=
  expressionText = "test" ||
  expressionText = "test.skip" ||
  expressionText = "test.only" ||
  expressionText = "test.describe" ||
  expressionText = "test.fixme"

/-- JS `text.replace(/['\x22]/g, '')`: delete every single- or
double-quote character, wherever it occurs. -/
def removeQuotes (s : String) : String :=
  ⟨s.toList.filter fun c => !(c = '\'' || c = '"')⟩

/-- `TestParser.extractTestInfo`: require at least two arguments; the name
is the first argument's literal value when it is a string literal, and
otherwise its source text with all quote characters removed; the span is
the whole call expression's line range. -/
def extractTestInfo (callExpr : TsNode) (filePath : Str) : Option TestInfo :=
  match callExpr with
  | .call _ _ startLine endLine args =>
    if args.length < 2 then none
    else
      match args.head? with
      | some nameArg =>
        let testName :=
          match nameArg with
          | .strLit v _ _ _ => v
          | other => removeQuotes other.getText
        some { name := testName, filePath := filePath,
               startLine := startLine, endLine := endLine }
      | none => none
  | _ => none

mutual
/-- The call-expression descendants of a node in document order, the node
itself first when it is a call — the order
`getDescendantsOfKind(SyntaxKind.CallExpression)` visits them.  (For the
recognized test callees, which are plain identifiers or dotted names, no
call expression can occur inside a callee, so descending into the
argument lists covers every call the walker sees.) -/
def nodeCalls : TsNode → List TsNode
  | .call c t s e args => TsNode.call c t s e args :: listCalls args
  | .strLit _ _ _ _ => []
  | .node _ _ _ ch => listCalls ch

/-- `nodeCalls` over a list of sibling nodes. -/
def listCalls : List TsNode → List TsNode
  | [] => []
  | n :: ns => nodeCalls n ++ listCalls ns
end

/-- `TestParser.extractTests`: keep, of all call expressions of the file,
those whose callee text is recognized, extracting their `TestInfo`. -/
def extractTests (sourceFile : List TsNode) (filePath : Str) : List TestInfo :=
  (listCalls sourceFile).filterMap fun callExpr =>
    if isTestCall callExpr.expressionText then extractTestInfo callExpr filePath
    else none

/-- `TestParser.isLineInRange`. -/
def isLineInRange (line startLine endLine : Nat) : Bool :=
  startLine ≤ line && line ≤ endLine

/-- `TestParser.hasOverlap`. -/
def hasOverlap (lines : List Nat) (startLine endLine : Nat) : Bool :=
  lines.any fun line => isLineInRange line startLine endLine

/-! ### C3: the extracted test name -/

/-- The naming rule C3 claims for a non-string-literal first argument,
taken from the spec's words: strip only the delimiting quote characters
(single quote, double quote or backtick, code 96) when the text is
enclosed in a matching pair, and preserve interior quote characters. -/
def stripDelimiters (s : String) : String :=
  match s.toList with
  | [] => s
  | c :: rest =>
    if (c = '\'' ∨ c = '"' ∨ c.toNat = 96) ∧ rest ≠ [] ∧ rest.getLast? = some c
    then ⟨rest.dropLast⟩
    else s

/-- The first argument of the counterexample call: a template literal
(not a `ts-morph` string literal) whose text contains interior double
quotes. -/
def tmplArg : TsNode := TsNode.node "`he said \"hi\"`" 2 2 []

/-- The body argument of the counterexample call. -/
def tmplBody : TsNode := TsNode.node "async () => \x7b\x7d" 2 4 []

/-- C3 is false as stated: on a recognized test call whose first argument
is the template literal `` `he said "hi"` ``, the extracted name removes
the interior double quotes and keeps the backtick delimiters — the
opposite of stripping only the delimiters. -/
theorem extracted_name_ce :
    (extractTestInfo (TsNode.call "test" "test(...)" 2 4 [tmplArg, tmplBody])
        "a.spec.ts".toList).map (fun t => t.name) = some "`he said hi`" ∧
    "`he said hi`" ≠ stripDelimiters "`he said \"hi\"`" := by
  constructor
  · rfl
  · decide

/-- C3 (amended): for a recognized test call with at least two arguments,
the extracted name is the first argument's literal value when it is a
string literal, and otherwise its source text with every single- and
double-quote character removed, wherever it occurs (other delimiters such
as backticks are preserved). -/
theorem extracted_name (calleeText text : String) (s e : Nat)
    (a : TsNode) (rest : List TsNode) (fp : Str) (hrest : rest ≠ []) :
    extractTestInfo (TsNode.call calleeText text s e (a :: rest)) fp =
      some { name :=
               match a with
               | TsNode.strLit v _ _ _ => v
               | other => removeQuotes other.getText,
             filePath := fp, startLine := s, endLine := e } := by
  have hlen : ¬ (a :: rest).length < 2 := by
    cases rest with
    | nil => exact absurd rfl hrest
    | cons b bs => simp
  simp only [extractTestInfo]
  rw [if_neg hlen]
  rfl

/-- Witness for the amended C3 at the template-literal argument. -/
theorem extracted_name_witness :
    extractTestInfo (TsNode.call "test" "test(...)" 2 4 [tmplArg, tmplBody])
        "a.spec.ts".toList =
      some { name := "`he said hi`", filePath := "a.spec.ts".toList,
             startLine := 2, endLine := 4 } :=
  (extracted_name "test" "test(...)" 2 4 tmplArg [tmplBody]
      "a.spec.ts".toList (List.cons_ne_nil _ _)).trans (by rfl)

/-! ## Impact classification of a modified test file (`ImpactAnalyzer`) -/

/-- `ImpactType` from `src/types`. -/
inductive ImpactType where
  | added
  | removed
  | modified
deriving DecidableEq

/-- The `ImpactResult` record of `src/types`; `isIndirect` is an optional
field, `none` when the source omits it. -/
structure ImpactResult where
  testName : String
  filePath : Str
  impactType : ImpactType
  isIndirect : Option Bool := none
deriving DecidableEq

/-- The `impacts.some(i => i.testName === … && i.impactType === 'added')`
test of `analyzeTestFile`'s modified loop. -/
def hasAddedNamed (impacts : List ImpactResult) (n : String) : Bool :=
  impacts.any fun i => i.testName == n && i.impactType == ImpactType.added

/-- The "find added tests" loop of `ImpactAnalyzer.analyzeTestFile` for a
modified file (the inner `isInAddedLines || !existedBefore` disjunction of
the source is kept verbatim, although its second disjunct is always true
at that point). -/
def addedPass (beforeTests currentTests : List TestInfo) (addedLines : List Nat)
    (path : Str) : List ImpactResult :=
  currentTests.filterMap fun test =>
    if !(beforeTests.any fun bt => bt.name == test.name) then
      if hasOverlap addedLines test.startLine test.endLine ||
         !(beforeTests.any fun bt => bt.name == test.name) then
        some { testName := test.name, filePath := path, impactType := .added }
      else none
    else none

/-- The "find removed tests" loop. -/
def removedPass (beforeTests currentTests : List TestInfo) (path : Str) :
    List ImpactResult :=
  beforeTests.filterMap fun test =>
    if !(currentTests.any fun ct => ct.name == test.name) then
      some { testName := test.name, filePath := path, impactType := .removed }
    else none

/-- One iteration of the "find modified tests" loop; `impacts` is the
list accumulated so far (the added and removed passes included). -/
def modifiedStep (beforeTests : List TestInfo) (addedLines : List Nat)
    (path : Str) (impacts : List ImpactResult) (test : TestInfo) :
    List ImpactResult :=
  if beforeTests.any fun bt => bt.name == test.name then
    if hasOverlap addedLines test.startLine test.endLine then
      if !(hasAddedNamed impacts test.name) then
        impacts ++
          [{ testName := test.name, filePath := path, impactType := .modified }]
      else impacts
    else impacts
  else impacts

/-- The whole modified-file branch of `analyzeTestFile`: the added and
removed passes, then the modified loop over the accumulated list. -/
def analyzeModified (beforeTests currentTests : List TestInfo)
    (addedLines : List Nat) (path : Str) : List ImpactResult :=
  currentTests.foldl (modifiedStep beforeTests addedLines path)
    (addedPass beforeTests currentTests addedLines path ++
     removedPass beforeTests currentTests path)

theorem hasAddedNamed_modifiedStep (bt : List TestInfo) (al : List Nat)
    (p : Str) (acc : List ImpactResult) (u : TestInfo) (n : String) :
    hasAddedNamed (modifiedStep bt al p acc u) n = hasAddedNamed acc n := by
  unfold modifiedStep
  by_cases h1 : (bt.any fun b => b.name == u.name) = true
  · rw [if_pos h1]
    by_cases h2 : hasOverlap al u.startLine u.endLine = true
    · rw [if_pos h2]
      by_cases h3 : (!(hasAddedNamed acc u.name)) = true
      · rw [if_pos h3]
        simp [hasAddedNamed]
      · rw [if_neg h3]
    · rw [if_neg h2]
  · rw [if_neg h1]

theorem hasAddedNamed_foldl (bt : List TestInfo) (al : List Nat) (p : Str)
    (ts : List TestInfo) :
    ∀ (acc : List ImpactResult) (n : String),
      hasAddedNamed (ts.foldl (modifiedStep bt al p) acc) n =
        hasAddedNamed acc n := by
  induction ts with
  | nil => intro acc n; rfl
  | cons u us ih =>
    intro acc n
    rw [List.foldl_cons, ih, hasAddedNamed_modifiedStep]

theorem addedPass_names {bt ct : List TestInfo} {al : List Nat} {p : Str}
    {r : ImpactResult} (h : r ∈ addedPass bt ct al p) :
    r.impactType = ImpactType.added ∧
    ∃ u ∈ ct, r.testName = u.name ∧
      (bt.any fun b => b.name == u.name) = false := by
  unfold addedPass at h
  rw [List.mem_filterMap] at h
  obtain ⟨u, hu, he⟩ := h
  by_cases h1 : (bt.any fun b => b.name == u.name) = true
  · rw [if_neg (by simp [h1])] at he
    exact absurd he (by simp)
  · have h1' := Bool.eq_false_iff.mpr h1
    rw [if_pos (by simp [h1']), if_pos (by simp [h1'])] at he
    obtain rfl := Option.some_injective _ he
    exact ⟨rfl, u, hu, rfl, h1'⟩

theorem removedPass_type {bt ct : List TestInfo} {p : Str}
    {r : ImpactResult} (h : r ∈ removedPass bt ct p) :
    r.impactType = ImpactType.removed := by
  unfold removedPass at h
  rw [List.mem_filterMap] at h
  obtain ⟨u, hu, he⟩ := h
  by_cases h1 : (ct.any fun c => c.name == u.name) = true
  · rw [if_neg (by simp [h1])] at he
    exact absurd he (by simp)
  · rw [if_pos (by simp [Bool.eq_false_iff.mpr h1])] at he
    obtain rfl := Option.some_injective _ he
    rfl

theorem foldl_modifiedStep_mem (bt : List TestInfo) (al : List Nat) (p : Str)
    (ts : List TestInfo) :
    ∀ (acc : List ImpactResult) (r : ImpactResult),
      r ∈ ts.foldl (modifiedStep bt al p) acc ↔
        r ∈ acc ∨ ∃ u ∈ ts, (bt.any fun b => b.name == u.name) = true ∧
          hasOverlap al u.startLine u.endLine = true ∧
          hasAddedNamed acc u.name = false ∧
          r = { testName := u.name, filePath := p,
                impactType := ImpactType.modified } := by
  induction ts with
  | nil => intro acc r; simp
  | cons u us ih =>
    intro acc r
    rw [List.foldl_cons, ih]
    constructor
    · rintro (hin | ⟨v, hv, h1, h2, h3, rfl⟩)
      · unfold modifiedStep at hin
        by_cases h1 : (bt.any fun b => b.name == u.name) = true
        · rw [if_pos h1] at hin
          by_cases h2 : hasOverlap al u.startLine u.endLine = true
          · rw [if_pos h2] at hin
            by_cases h3 : (!(hasAddedNamed acc u.name)) = true
            · rw [if_pos h3] at hin
              rcases List.mem_append.mp hin with hacc | hone
              · exact Or.inl hacc
              · rcases List.mem_singleton.mp hone with rfl
                exact Or.inr ⟨u, List.mem_cons_self u us, h1, h2,
                  (by simpa using h3), rfl⟩
            · rw [if_neg h3] at hin
              exact Or.inl hin
          · rw [if_neg h2] at hin
            exact Or.inl hin
        · rw [if_neg h1] at hin
          exact Or.inl hin
      · rw [hasAddedNamed_modifiedStep] at h3
        exact Or.inr ⟨v, List.mem_cons_of_mem u hv, h1, h2, h3, rfl⟩
    · rintro (hin | ⟨v, hv, h1, h2, h3, rfl⟩)
      · left
        unfold modifiedStep
        by_cases h1 : (bt.any fun b => b.name == u.name) = true
        · rw [if_pos h1]
          by_cases h2 : hasOverlap al u.startLine u.endLine = true
          · rw [if_pos h2]
            by_cases h3 : (!(hasAddedNamed acc u.name)) = true
            · rw [if_pos h3]
              exact List.mem_append_left _ hin
            · rw [if_neg h3]
              exact hin
          · rw [if_neg h2]
            exact hin
        · rw [if_neg h1]
          exact hin
      · rcases List.mem_cons.mp hv with rfl | hvus
        · left
          unfold modifiedStep
          rw [if_pos h1, if_pos h2, if_pos (by simp [h3])]
          exact List.mem_append_right _ (List.mem_singleton.mpr rfl)
        · right
          exact ⟨v, hvus, h1, h2,
            by rw [hasAddedNamed_modifiedStep]; exact h3, rfl⟩

theorem hasAddedNamed_addedPass_false {bt ct : List TestInfo} {al : List Nat}
    {p : Str} {n : String} (hb : (bt.any fun b => b.name == n) = true) :
    hasAddedNamed (addedPass bt ct al p) n = false := by
  rw [Bool.eq_false_iff]
  intro hc
  rw [hasAddedNamed, List.any_eq_true] at hc
  obtain ⟨r, hr, hpred⟩ := hc
  obtain ⟨-, u, -, hname, hfalse⟩ := addedPass_names hr
  simp only [Bool.and_eq_true, beq_iff_eq] at hpred
  rw [hname] at hpred
  rw [hpred.1] at hfalse
  rw [hb] at hfalse
  exact Bool.noConfusion hfalse

theorem hasAddedNamed_removedPass_false (bt ct : List TestInfo) (p : Str)
    (n : String) :
    hasAddedNamed (removedPass bt ct p) n = false := by
  rw [Bool.eq_false_iff]
  intro hc
  rw [hasAddedNamed, List.any_eq_true] at hc
  obtain ⟨r, hr, hpred⟩ := hc
  have ht := removedPass_type hr
  simp only [Bool.and_eq_true, beq_iff_eq, ht] at hpred
  exact ImpactType.noConfusion hpred.2

/-- C2: for a modified test file whose old and new contents are both
available, a test present by name in both the old and new test sets is
reported with impact type modified exactly when some added line number
falls within its new-version span — and no added-typed result with its
name is ever emitted in the same pass, so the "not already classified
added" proviso always holds for such a test.  In particular, a test
present in both versions with no changed line overlapping its span is
never reported as modified. -/
theorem modified_report_iff (beforeTests currentTests : List TestInfo)
    (addedLines : List Nat) (path : Str) (t : TestInfo)
    (hmem : t ∈ currentTests)
    (hboth : (beforeTests.any fun b => b.name == t.name) = true)
    (hnodup : (currentTests.map TestInfo.name).Nodup) :
    hasAddedNamed (analyzeModified beforeTests currentTests addedLines path)
      t.name = false ∧
    (((analyzeModified beforeTests currentTests addedLines path).any
        fun r => r.testName == t.name && r.impactType == ImpactType.modified)
      = true ↔
      hasOverlap addedLines t.startLine t.endLine = true) := by
  have hacc : hasAddedNamed
      (addedPass beforeTests currentTests addedLines path ++
        removedPass beforeTests currentTests path) t.name = false := by
    have ha := @hasAddedNamed_addedPass_false beforeTests currentTests
      addedLines path t.name hboth
    have hb := hasAddedNamed_removedPass_false beforeTests currentTests path
      t.name
    unfold hasAddedNamed at ha hb ⊢
    rw [List.any_append, ha, hb]
    rfl
  constructor
  · show hasAddedNamed (analyzeModified beforeTests currentTests addedLines
      path) t.name = false
    rw [analyzeModified, hasAddedNamed_foldl]
    exact hacc
  · constructor
    · intro hany
      rw [List.any_eq_true] at hany
      obtain ⟨r, hr, hpred⟩ := hany
      simp only [Bool.and_eq_true, beq_iff_eq] at hpred
      rw [analyzeModified, foldl_modifiedStep_mem] at hr
      rcases hr with hr | ⟨u, hu, h1, h2, h3, rfl⟩
      · rcases List.mem_append.mp hr with hr | hr
        · have := (addedPass_names hr).1
          rw [this] at hpred
          exact ImpactType.noConfusion hpred.2
        · have := removedPass_type hr
          rw [this] at hpred
          exact ImpactType.noConfusion hpred.2
      · have huname : u.name = t.name := hpred.1
        have : u = t :=
          List.inj_on_of_nodup_map hnodup hu hmem huname
        rw [this] at h2
        exact h2
    · intro hov
      rw [List.any_eq_true]
      refine ⟨{ testName := t.name, filePath := path,
                impactType := ImpactType.modified }, ?_, by simp⟩
      rw [analyzeModified, foldl_modifiedStep_mem]
      exact Or.inr ⟨t, hmem, hboth, hov, hacc, rfl⟩

/-- Witness for C2: test "A" spans lines 1–6 in the new version, line 3
was added, so "A" is reported modified and never added. -/
theorem modified_report_iff_witness :
    ((analyzeModified [⟨"A", [], 1, 5⟩] [⟨"A", [], 1, 6⟩] [3]
        "a.spec.ts".toList).any
      fun r => r.testName == "A" && r.impactType == ImpactType.modified)
      = true :=
  (modified_report_iff [⟨"A", [], 1, 5⟩] [⟨"A", [], 1, 6⟩] [3]
      "a.spec.ts".toList ⟨"A", [], 1, 6⟩ (by decide) (by decide)
      (by decide)).2.mpr (by decide)

/-! ### C10: nested test calls inside a describe block

`ts-morph` guarantees that a descendant node's source range lies inside
its ancestor's; `wfNode` states that positional soundness for our tree
model, and the claim is proved for every tree satisfying it. -/

mutual
/-- Positional soundness: every child's line span is contained in its
parent's span, recursively. -/
def wfNode : TsNode → Bool
  | .call _ _ s e args => wfChildren s e args
  | .strLit _ _ _ _ => true
  | .node _ s e ch => wfChildren s e ch

/-- `wfNode` for a list of children of a node spanning lines `s`–`e`. -/
def wfChildren (s e : Nat) : List TsNode → Bool
  | [] => true
  | c :: cs =>
    (s ≤ c.getStartLineNumber && c.getEndLineNumber ≤ e && wfNode c) &&
    wfChildren s e cs
end

theorem listCalls_mem (l : List TsNode) (c : TsNode) :
    c ∈ listCalls l ↔ ∃ a ∈ l, c ∈ nodeCalls a := by
  induction l with
  | nil => simp [listCalls]
  | cons a as ih =>
    simp only [listCalls, List.mem_append, ih, List.exists_mem_cons_iff]

theorem wfChildren_iff (s e : Nat) (l : List TsNode) :
    wfChildren s e l = true ↔
      ∀ a ∈ l, s ≤ a.getStartLineNumber ∧ a.getEndLineNumber ≤ e ∧
        wfNode a = true := by
  induction l with
  | nil => simp [wfChildren]
  | cons a as ih =>
    simp only [wfChildren, Bool.and_eq_true, decide_eq_true_eq, ih,
      List.forall_mem_cons]
    tauto

theorem sizeOf_mem_args {args : List TsNode} {a : TsNode} (ha : a ∈ args)
    (cal t : String) (s e : Nat) :
    sizeOf a < sizeOf (TsNode.call cal t s e args) := by
  have h1 := List.sizeOf_lt_of_mem ha
  simp only [TsNode.call.sizeOf_spec]
  omega

theorem sizeOf_mem_children {ch : List TsNode} {a : TsNode} (ha : a ∈ ch)
    (t : String) (s e : Nat) :
    sizeOf a < sizeOf (TsNode.node t s e ch) := by
  have h1 := List.sizeOf_lt_of_mem ha
  simp only [TsNode.node.sizeOf_spec]
  omega

theorem span_calls_aux : ∀ (k : Nat) (n : TsNode), sizeOf n ≤ k →
    wfNode n = true → ∀ c ∈ nodeCalls n,
      n.getStartLineNumber ≤ c.getStartLineNumber ∧
      c.getEndLineNumber ≤ n.getEndLineNumber := by
  intro k
  induction k with
  | zero =>
    intro n hn
    exact absurd hn (by cases n <;> simp)
  | succ k ih =>
    intro n hn hwf c hc
    cases n with
    | strLit v t s e => simp [nodeCalls] at hc
    | call cal t s e args =>
      simp only [nodeCalls] at hc
      rcases List.mem_cons.mp hc with rfl | hc'
      · exact ⟨Nat.le_refl _, Nat.le_refl _⟩
      · obtain ⟨a, ha, hca⟩ := (listCalls_mem args c).mp hc'
        have hwfc : wfChildren s e args = true := by
          simpa [wfNode] using hwf
        have h3 := (wfChildren_iff s e args).mp hwfc a ha
        have hs : sizeOf a ≤ k := by
          have h1 := sizeOf_mem_args ha cal t s e
          omega
        have hrec := ih a hs h3.2.2 c hca
        exact ⟨Nat.le_trans h3.1 hrec.1, Nat.le_trans hrec.2 h3.2.1⟩
    | node t s e ch =>
      simp only [nodeCalls] at hc
      obtain ⟨a, ha, hca⟩ := (listCalls_mem ch c).mp hc
      have hwfc : wfChildren s e ch = true := by
        simpa [wfNode] using hwf
      have h3 := (wfChildren_iff s e ch).mp hwfc a ha
      have hs : sizeOf a ≤ k := by
        have h1 := sizeOf_mem_children ha t s e
        omega
      have hrec := ih a hs h3.2.2 c hca
      exact ⟨Nat.le_trans h3.1 hrec.1, Nat.le_trans hrec.2 h3.2.1⟩

theorem nodeCalls_trans_aux : ∀ (k : Nat) (n d t : TsNode), sizeOf n ≤ k →
    d ∈ nodeCalls n → t ∈ nodeCalls d → t ∈ nodeCalls n := by
  intro k
  induction k with
  | zero =>
    intro n d t hn
    exact absurd hn (by cases n <;> simp)
  | succ k ih =>
    intro n d t hn hd ht
    cases n with
    | strLit v tx s e => simp [nodeCalls] at hd
    | call cal tx s e args =>
      simp only [nodeCalls] at hd ⊢
      rcases List.mem_cons.mp hd with rfl | hd'
      · simpa [nodeCalls] using ht
      · obtain ⟨a, ha, hda⟩ := (listCalls_mem args d).mp hd'
        have hs : sizeOf a ≤ k := by
          have h1 := sizeOf_mem_args ha cal tx s e
          omega
        exact List.mem_cons_of_mem _
          ((listCalls_mem args t).mpr ⟨a, ha, ih a d t hs hda ht⟩)
    | node tx s e ch =>
      simp only [nodeCalls] at hd ⊢
      obtain ⟨a, ha, hda⟩ := (listCalls_mem ch d).mp hd
      have hs : sizeOf a ≤ k := by
        have h1 := sizeOf_mem_children ha tx s e
        omega
      exact (listCalls_mem ch t).mpr ⟨a, ha, ih a d t hs hda ht⟩

theorem listCalls_trans {l : List TsNode} {d t : TsNode}
    (hd : d ∈ listCalls l) (ht : t ∈ nodeCalls d) : t ∈ listCalls l := by
  obtain ⟨a, ha, hda⟩ := (listCalls_mem l d).mp hd
  exact (listCalls_mem l t).mpr
    ⟨a, ha, nodeCalls_trans_aux (sizeOf a) a d t (Nat.le_refl _) hda ht⟩

/-- The name `extractTestInfo` computes from the first argument. -/
def argName : TsNode → String
  | TsNode.strLit v _ _ _ => v
  | other => removeQuotes other.getText

theorem extractTestInfo_some (cal t : String) (s e : Nat)
    (args : List TsNode) (fp : Str) (h : 2 ≤ args.length) :
    ∃ b, extractTestInfo (TsNode.call cal t s e args) fp = some b ∧
      b.startLine = s ∧ b.endLine = e := by
  match args, h with
  | a :: rest, h =>
    have hrest : rest ≠ [] := by
      cases rest with
      | nil => simp at h
      | cons b bs => exact List.cons_ne_nil b bs
    have hlen : ¬ (a :: rest).length < 2 := by
      cases rest with
      | nil => exact absurd rfl hrest
      | cons b bs => simp
    refine ⟨{ name := argName a, filePath := fp,
              startLine := s, endLine := e }, ?_, rfl, rfl⟩
    simp only [extractTestInfo]
    rw [if_neg hlen]
    cases a <;> rfl

theorem extractTests_mem {sf : List TsNode} {fp : Str} {c : TsNode}
    {b : TestInfo} (hc : c ∈ listCalls sf)
    (htest : isTestCall c.expressionText = true)
    (hb : extractTestInfo c fp = some b) :
    b ∈ extractTests sf fp := by
  unfold extractTests
  rw [List.mem_filterMap]
  exact ⟨c, hc, by rw [if_pos htest]; exact hb⟩

/-- C10: when a recognized `test.describe` call with at least two
arguments contains a nested recognized test call (with at least two
arguments) in its argument subtree, the extractor returns a `TestInfo`
both for the describe call itself and for the nested call, and on a
positionally sound tree the nested block's span is contained in the
describe block's span — so one changed line inside the nested test can
produce several overlapping results from the same file. -/
theorem nested_describe_reported (sf : List TsNode) (fp : Str)
    (dText : String) (ds de : Nat) (dArgs : List TsNode)
    (tCallee tText : String) (ts te : Nat) (tArgs : List TsNode)
    (hd : TsNode.call "test.describe" dText ds de dArgs ∈ listCalls sf)
    (hwf : wfNode (TsNode.call "test.describe" dText ds de dArgs) = true)
    (hdargs : 2 ≤ dArgs.length)
    (ht : TsNode.call tCallee tText ts te tArgs ∈ listCalls dArgs)
    (htest : isTestCall tCallee = true)
    (htargs : 2 ≤ tArgs.length) :
    (∃ bd, extractTestInfo (TsNode.call "test.describe" dText ds de dArgs) fp
        = some bd ∧ bd ∈ extractTests sf fp ∧
        bd.startLine = ds ∧ bd.endLine = de) ∧
    (∃ bt, extractTestInfo (TsNode.call tCallee tText ts te tArgs) fp
        = some bt ∧ bt ∈ extractTests sf fp ∧
        bt.startLine = ts ∧ bt.endLine = te) ∧
    ds ≤ ts ∧ te ≤ de := by
  have htIn : TsNode.call tCallee tText ts te tArgs ∈
      nodeCalls (TsNode.call "test.describe" dText ds de dArgs) := by
    simp only [nodeCalls]
    exact List.mem_cons_of_mem _ ht
  have hspan := span_calls_aux
    (sizeOf (TsNode.call "test.describe" dText ds de dArgs))
    (TsNode.call "test.describe" dText ds de dArgs) (Nat.le_refl _) hwf
    (TsNode.call tCallee tText ts te tArgs) htIn
  obtain ⟨bd, hbd, hbds, hbde⟩ :=
    extractTestInfo_some "test.describe" dText ds de dArgs fp hdargs
  obtain ⟨bt, hbt, hbts, hbte⟩ :=
    extractTestInfo_some tCallee tText ts te tArgs fp htargs
  refine ⟨⟨bd, hbd, extractTests_mem hd rfl hbd, hbds, hbde⟩,
          ⟨bt, hbt, extractTests_mem (listCalls_trans hd htIn) htest hbt,
            hbts, hbte⟩, hspan.1, hspan.2⟩

/-- The nested test call of the witness tree. -/
def exInner : TsNode :=
  TsNode.call "test" "test('a', cb)" 2 4
    [TsNode.strLit "a" "'a'" 2 2, TsNode.node "cb" 2 4 []]

/-- The describe call of the witness tree, containing `exInner`. -/
def exDescribe : TsNode :=
  TsNode.call "test.describe" "test.describe('g', body)" 1 5
    [TsNode.strLit "g" "'g'" 1 1, TsNode.node "body" 1 5 [exInner]]

/-- Witness for C10 on the concrete tree `[exDescribe]`: both blocks are
extracted and the inner span 2–4 is inside the describe span 1–5. -/
theorem nested_describe_reported_witness :
    ({ name := "g", filePath := "a.spec.ts".toList, startLine := 1,
       endLine := 5 } : TestInfo) ∈ extractTests [exDescribe] "a.spec.ts".toList ∧
    ({ name := "a", filePath := "a.spec.ts".toList, startLine := 2,
       endLine := 4 } : TestInfo) ∈ extractTests [exDescribe] "a.spec.ts".toList := by
  have h := nested_describe_reported [exDescribe] "a.spec.ts".toList
    "test.describe('g', body)" 1 5
    [TsNode.strLit "g" "'g'" 1 1, TsNode.node "body" 1 5 [exInner]]
    "test" "test('a', cb)" 2 4
    [TsNode.strLit "a" "'a'" 2 2, TsNode.node "cb" 2 4 []]
    (by simp [listCalls, nodeCalls, exDescribe, exInner])
    (by decide) (by decide)
    (by simp [listCalls, nodeCalls, exInner])
    (by decide) (by decide)
  obtain ⟨⟨bd, hbd, hbdmem, -, -⟩, ⟨bt, hbt, hbtmem, -, -⟩, -, -⟩ := h
  have hdval : extractTestInfo (TsNode.call "test.describe"
      "test.describe('g', body)" 1 5
      [TsNode.strLit "g" "'g'" 1 1, TsNode.node "body" 1 5 [exInner]])
      "a.spec.ts".toList =
      some { name := "g", filePath := "a.spec.ts".toList,
             startLine := 1, endLine := 5 } := by decide
  have htval : extractTestInfo (TsNode.call "test" "test('a', cb)" 2 4
      [TsNode.strLit "a" "'a'" 2 2, TsNode.node "cb" 2 4 []])
      "a.spec.ts".toList =
      some { name := "a", filePath := "a.spec.ts".toList,
             startLine := 2, endLine := 4 } := by decide
  constructor
  · rw [Option.some_injective _ (hdval.symm.trans hbd)]
    exact hbdmem
  · rw [Option.some_injective _ (htval.symm.trans hbt)]
    exact hbtmem

/-! ## Import Resolver (`ImportTracker`)

Paths are absolute strings; `path.*` operations are modelled on segment
lists.  The repository's filesystem is a directory tree rooted at
`repoPath`; everything outside the repository does not exist.  Import
extraction (`ts-morph` import declarations) is an oracle `imports`. -/

/-- Join path segments with `'/'` (no leading slash). -/
def joinSegs : List Str → Str
  | [] => []
  | [s] => s
  | s :: rest => s ++ '/' :: joinSegs rest

/-- Segment normalization of node's path resolution: empty and `.`
segments vanish, `..` pops the previous segment. -/
def normSegs : List Str → List Str :=
  List.foldl (fun acc seg =>
    if seg = [] ∨ seg = ['.'] then acc
    else if seg = ['.', '.'] then acc.dropLast
    else acc ++ [seg]) []

/-- Render an absolute path from segments. -/
def absPath (segs : List Str) : Str := '/' :: joinSegs segs

/-- `path.resolve(base, p)` for an absolute `base`, as the tracker always
calls it. -/
def pathResolve (base p : Str) : Str :=
  if p.head? = some '/' then absPath (normSegs (splitOnChar '/' p))
  else absPath (normSegs (splitOnChar '/' (base ++ '/' :: p)))

/-- `path.dirname` on an absolute path. -/
def pathDirname (p : Str) : Str :=
  absPath (((splitOnChar '/' p).filter (fun s => s ≠ [])).dropLast)

/-- `path.join(a, b)` for an absolute `a`. -/
def pathJoin (a b : Str) : Str :=
  absPath (normSegs (splitOnChar '/' (a ++ '/' :: b)))

/-- The repository's directory tree, as the filesystem collaborator
exposes it. -/
inductive FsTree where
  | file (name : Str)
  | dir (name : Str) (entries : List FsTree)

/-- Walk a segment path through directory entries: does it exist? -/
def fsHas : List FsTree → List Str → Bool
  | _, [] => true
  | entries, seg :: rest =>
    entries.any fun e =>
      match e with
      | FsTree.file name => name == seg && rest.isEmpty
      | FsTree.dir name sub => name == seg && fsHas sub rest

/-- `fs.existsSync(p)` over the modelled repository (`p` absolute). -/
def fsExists (repoPath : Str) (entries : List FsTree) (p : Str) : Bool :=
  let rsegs := (splitOnChar '/' repoPath).filter (fun s => s ≠ [])
  let psegs := normSegs (splitOnChar '/' p)
  rsegs.isPrefixOf psegs && fsHas entries (psegs.drop rsegs.length)

/-- `ImportTracker.resolveImportPath`. -/
def resolveImportPath (repoPath : Str) (entries : List FsTree)
    (fromFile importPath : Str) : Str :=
  if importPath.head? = some '.' then
    let fromDir := pathDirname fromFile
    let resolved := pathResolve fromDir importPath
    if !(fsExists repoPath entries resolved) then
      if fsExists repoPath entries (resolved ++ ".ts".toList) then
        resolved ++ ".ts".toList
      else if fsExists repoPath entries (pathJoin resolved "index.ts".toList) then
        pathJoin resolved "index.ts".toList
      else resolved
    else resolved
  else importPath

/-- `ImportTracker.normalizePath`: `path.resolve(this.repoPath, p)`. -/
def normalizePath (repoPath p : Str) : Str := pathResolve repoPath p

mutual
/-- One entry of the `findAllSpecFiles` walk: recurse into non-hidden,
non-`node_modules` directories; collect files ending in `.spec.ts`. -/
def findFilesEntry (dirPath : Str) : FsTree → List Str
  | FsTree.dir name sub =>
    if name.head? ≠ some '.' ∧ name ≠ "node_modules".toList then
      findFilesList (pathJoin dirPath name) sub
    else []
  | FsTree.file name =>
    if ".spec.ts".toList.isSuffixOf name then [pathJoin dirPath name] else []

/-- The walk over a directory's entries, in listing order. -/
def findFilesList (dirPath : Str) : List FsTree → List Str
  | [] => []
  | e :: rest => findFilesEntry dirPath e ++ findFilesList dirPath rest
end

/-- `ImportTracker.findAllSpecFiles`. -/
def findAllSpecFiles (repoPath : Str) (entries : List FsTree) : List Str :=
  findFilesList repoPath entries

/-- `ImportTracker.findTestFilesImporting`: collect the spec files one of
whose imports, resolved and normalized, equals the normalized target. -/
def findTestFilesImporting (repoPath : Str) (entries : List FsTree)
    (imports : Str → List Str) (helperPath : Str) : List Str :=
  (findAllSpecFiles repoPath entries).filter fun specFile =>
    (imports specFile).any fun importPath =>
      normalizePath repoPath
          (resolveImportPath repoPath entries specFile importPath) ==
        normalizePath repoPath helperPath

/-- `ImpactAnalyzer.isTestFile`. -/
def isTestFile (filePath : Str) : Bool :=
  ".spec.ts".toList.isSuffixOf filePath ||
  ".test.ts".toList.isSuffixOf filePath

/-! ### C1: which files the import scan enumerates -/

mutual
/-- Modelled from the spec: the enumeration C1 describes — the same walk
as `findFilesEntry` but collecting any file with either recognized
test-file suffix (`isTestFile`), not only `.spec.ts`. -/
def specWalkEntry (dirPath : Str) : FsTree → List Str
  | FsTree.dir name sub =>
    if name.head? ≠ some '.' ∧ name ≠ "node_modules".toList then
      specWalkList (pathJoin dirPath name) sub
    else []
  | FsTree.file name =>
    if isTestFile name then [pathJoin dirPath name] else []

/-- Modelled from the spec: `specWalkEntry` over a directory listing. -/
def specWalkList (dirPath : Str) : List FsTree → List Str
  | [] => []
  | e :: rest => specWalkEntry dirPath e ++ specWalkList dirPath rest
end

/-- Modelled from the spec: `testFilesImporting` as C1 states it, over
every test file of the repository tree. -/
def testFilesImportingSpec (repoPath : Str) (entries : List FsTree)
    (imports : Str → List Str) (helperPath : Str) : List Str :=
  (specWalkList repoPath entries).filter fun testFile =>
    (imports testFile).any fun importPath =>
      normalizePath repoPath
          (resolveImportPath repoPath entries testFile importPath) ==
        normalizePath repoPath helperPath

/-- The repository refuting C1: one helper and one `.test.ts` file that
imports it. -/
def exRepoC1 : List FsTree :=
  [FsTree.file "helper.ts".toList, FsTree.file "a.test.ts".toList]

/-- The import oracle of the C1 counterexample. -/
def exImportsC1 : Str → List Str :=
  fun f => if f == "/repo/a.test.ts".toList then ["./helper".toList] else []

/-- C1 is false as stated: `/repo/a.test.ts` ends in a recognized
test-file suffix and imports `./helper`, which resolves to
`/repo/helper.ts`, yet `findTestFilesImporting` returns nothing because
its walk collects only `.spec.ts` files. -/
theorem testFilesImporting_ce :
    findTestFilesImporting "/repo".toList exRepoC1 exImportsC1
      "/repo/helper.ts".toList = [] ∧
    testFilesImportingSpec "/repo".toList exRepoC1 exImportsC1
      "/repo/helper.ts".toList = ["/repo/a.test.ts".toList] ∧
    isTestFile "/repo/a.test.ts".toList = true := by
  refine ⟨by decide, by decide, by decide⟩

/-- A `.spec.ts` file reachable from `dirPath` through non-hidden,
non-`node_modules` directories — the files the walk enumerates. -/
inductive SpecFileIn : Str → List FsTree → Str → Prop where
  | here {dirPath : Str} {entries : List FsTree} {name : Str} :
      FsTree.file name ∈ entries →
      ".spec.ts".toList.isSuffixOf name = true →
      SpecFileIn dirPath entries (pathJoin dirPath name)
  | there {dirPath : Str} {entries : List FsTree} {name : Str}
      {sub : List FsTree} {p : Str} :
      FsTree.dir name sub ∈ entries →
      name.head? ≠ some '.' →
      name ≠ "node_modules".toList →
      SpecFileIn (pathJoin dirPath name) sub p →
      SpecFileIn dirPath entries p

theorem SpecFileIn.weaken {dirPath : Str} {e : FsTree} {rest : List FsTree}
    {p : Str} (h : SpecFileIn dirPath rest p) :
    SpecFileIn dirPath (e :: rest) p := by
  cases h with
  | here hm hs => exact SpecFileIn.here (List.mem_cons_of_mem _ hm) hs
  | there hm h1 h2 hsub =>
    exact SpecFileIn.there (List.mem_cons_of_mem _ hm) h1 h2 hsub

theorem SpecFileIn.cons_iff {dirPath : Str} {e : FsTree}
    {rest : List FsTree} {p : Str} :
    SpecFileIn dirPath (e :: rest) p ↔
      (∃ name, e = FsTree.file name ∧
        ".spec.ts".toList.isSuffixOf name = true ∧
        p = pathJoin dirPath name) ∨
      (∃ name sub, e = FsTree.dir name sub ∧ name.head? ≠ some '.' ∧
        name ≠ "node_modules".toList ∧
        SpecFileIn (pathJoin dirPath name) sub p) ∨
      SpecFileIn dirPath rest p := by
  constructor
  · intro h
    cases h with
    | here hm hs =>
      rcases List.mem_cons.mp hm with heq | hm'
      · exact Or.inl ⟨_, heq.symm, hs, rfl⟩
      · exact Or.inr (Or.inr (SpecFileIn.here hm' hs))
    | there hm h1 h2 hsub =>
      rcases List.mem_cons.mp hm with heq | hm'
      · exact Or.inr (Or.inl ⟨_, _, heq.symm, h1, h2, hsub⟩)
      · exact Or.inr (Or.inr (SpecFileIn.there hm' h1 h2 hsub))
  · rintro (⟨name, rfl, hs, rfl⟩ | ⟨name, sub, rfl, h1, h2, hsub⟩ | h)
    · exact SpecFileIn.here (List.mem_cons_self _ _) hs
    · exact SpecFileIn.there (List.mem_cons_self _ _) h1 h2 hsub
    · exact h.weaken

theorem findFiles_iff_aux : ∀ (k : Nat) (entries : List FsTree)
    (dirPath p : Str), sizeOf entries ≤ k →
    (p ∈ findFilesList dirPath entries ↔ SpecFileIn dirPath entries p) := by
  intro k
  induction k with
  | zero =>
    intro entries dirPath p h
    exfalso
    cases entries with
    | nil => simp at h
    | cons e rest => simp only [List.cons.sizeOf_spec] at h; omega
  | succ k ih =>
    intro entries dirPath p h
    cases entries with
    | nil =>
      constructor
      · intro h'
        simp [findFilesList] at h'
      · intro hs
        cases hs with
        | here hm _ => exact absurd hm (List.not_mem_nil _)
        | there hm _ _ _ => exact absurd hm (List.not_mem_nil _)
    | cons e rest =>
      have hszr : sizeOf rest ≤ k := by
        simp only [List.cons.sizeOf_spec] at h
        have : 0 < sizeOf e := by cases e <;> simp_arith
        omega
      rw [show findFilesList dirPath (e :: rest) =
            findFilesEntry dirPath e ++ findFilesList dirPath rest from rfl,
          List.mem_append, SpecFileIn.cons_iff, ih rest dirPath p hszr]
      cases e with
      | file name =>
        simp only [findFilesEntry]
        by_cases hs : (".spec.ts".toList.isSuffixOf name) = true
        · rw [if_pos hs]
          constructor
          · rintro (hp | hp)
            · exact Or.inl ⟨name, rfl, hs, List.mem_singleton.mp hp⟩
            · exact Or.inr (Or.inr hp)
          · rintro (⟨name', heq, hs', rfl⟩ | ⟨name', sub', heq, -, -, -⟩ | hp)
            · injection heq with hn
              subst hn
              exact Or.inl (List.mem_singleton.mpr rfl)
            · exact FsTree.noConfusion heq
            · exact Or.inr hp
        · rw [if_neg hs]
          constructor
          · rintro (hp | hp)
            · exact absurd hp (List.not_mem_nil p)
            · exact Or.inr (Or.inr hp)
          · rintro (⟨name', heq, hs', rfl⟩ | ⟨name', sub', heq, -, -, -⟩ | hp)
            · injection heq with hn
              subst hn
              exact absurd hs' hs
            · exact FsTree.noConfusion heq
            · exact Or.inr hp
      | dir name sub =>
        have hszs : sizeOf sub ≤ k := by
          simp only [List.cons.sizeOf_spec, FsTree.dir.sizeOf_spec] at h
          omega
        simp only [findFilesEntry]
        by_cases hcond : name.head? ≠ some '.' ∧ name ≠ "node_modules".toList
        · rw [if_pos hcond, ih sub (pathJoin dirPath name) p hszs]
          constructor
          · rintro (hp | hp)
            · exact Or.inr (Or.inl ⟨name, sub, rfl, hcond.1, hcond.2, hp⟩)
            · exact Or.inr (Or.inr hp)
          · rintro (⟨name', heq, -, -⟩ | ⟨name', sub', heq, h1, h2, hsub⟩ | hp)
            · exact FsTree.noConfusion heq
            · injection heq with hn hsv
              subst hn
              subst hsv
              exact Or.inl hsub
            · exact Or.inr hp
        · rw [if_neg hcond]
          constructor
          · rintro (hp | hp)
            · exact absurd hp (List.not_mem_nil p)
            · exact Or.inr (Or.inr hp)
          · rintro (⟨name', heq, -, -⟩ | ⟨name', sub', heq, h1, h2, hsub⟩ | hp)
            · exact FsTree.noConfusion heq
            · injection heq with hn hsv
              subst hn
              subst hsv
              exact absurd ⟨h1, h2⟩ hcond
            · exact Or.inr hp

/-- C1 (amended): `findTestFilesImporting` returns exactly the `.spec.ts`
files of the repository tree (reached recursively, skipping hidden and
`node_modules` directories — `.test.ts` files are never enumerated by
this scan although the analyzer's own `isTestFile` accepts both suffixes)
for which some import, as resolved by the resolver, is path-equal after
normalization against the repository root to the target file. -/
theorem testFilesImporting_exact (repoPath : Str) (entries : List FsTree)
    (imports : Str → List Str) (helperPath f : Str) :
    f ∈ findTestFilesImporting repoPath entries imports helperPath ↔
      SpecFileIn repoPath entries f ∧
      ((imports f).any fun importPath =>
        normalizePath repoPath
            (resolveImportPath repoPath entries f importPath) ==
          normalizePath repoPath helperPath) = true := by
  unfold findTestFilesImporting findAllSpecFiles
  rw [List.mem_filter,
    findFiles_iff_aux (sizeOf entries) entries repoPath f (Nat.le_refl _)]

/-! ### C9: import resolution -/

/-- The repository refuting the "never matched" half of C9: a helper
`foo.ts` and a spec file importing it through the bare (non-relative)
specifier `"foo.ts"`. -/
def exRepoC9 : List FsTree :=
  [FsTree.file "foo.ts".toList, FsTree.file "a.spec.ts".toList]

/-- The import oracle of the C9 counterexample. -/
def exImportsC9 : Str → List Str :=
  fun f => if f == "/repo/a.spec.ts".toList then ["foo.ts".toList] else []

/-- C9 is false as stated: the non-relative specifier `"foo.ts"` is
returned unresolved, but the matching step normalizes it against the
repository root to `/repo/foo.ts`, so the importing spec file IS matched
against (and collected for) the repository file `/repo/foo.ts`. -/
theorem resolve_unresolved_ce :
    resolveImportPath "/repo".toList exRepoC9 "/repo/a.spec.ts".toList
      "foo.ts".toList = "foo.ts".toList ∧
    findTestFilesImporting "/repo".toList exRepoC9 exImportsC9
      "/repo/foo.ts".toList = ["/repo/a.spec.ts".toList] := by
  refine ⟨by decide, by decide⟩

/-- C9 (amended): a specifier beginning with `.` is resolved against the
importing file's directory, trying the literal path, then the path with
the `.ts` extension appended, then the path as a directory with an
`index.ts` file, and falling back to the literal path; any other
specifier is returned unresolved as written — but the matching step then
normalizes the raw specifier against the repository root, so a bare
specifier that textually equals a repository-root-relative path of the
target still matches it. -/
theorem resolveImportPath_spec (repoPath : Str) (entries : List FsTree)
    (fromFile sp : Str) :
    (sp.head? = some '.' →
      resolveImportPath repoPath entries fromFile sp =
        (let resolved := pathResolve (pathDirname fromFile) sp
         if fsExists repoPath entries resolved then resolved
         else if fsExists repoPath entries (resolved ++ ".ts".toList) then
           resolved ++ ".ts".toList
         else if fsExists repoPath entries
             (pathJoin resolved "index.ts".toList) then
           pathJoin resolved "index.ts".toList
         else resolved)) ∧
    (sp.head? ≠ some '.' →
      resolveImportPath repoPath entries fromFile sp = sp ∧
      normalizePath repoPath
          (resolveImportPath repoPath entries fromFile sp) =
        pathResolve repoPath sp) := by
  constructor
  · intro hdot
    unfold resolveImportPath
    rw [if_pos hdot]
    by_cases hex : fsExists repoPath entries
        (pathResolve (pathDirname fromFile) sp) = true
    · rw [if_neg (by simp [hex]), if_pos hex]
    · rw [if_pos (by simp [Bool.eq_false_iff.mpr hex]),
          if_neg (Bool.eq_false_iff.mp (Bool.eq_false_iff.mpr hex))]
  · intro hdot
    have hres : resolveImportPath repoPath entries fromFile sp = sp := by
      unfold resolveImportPath
      rw [if_neg hdot]
    exact ⟨hres, by rw [hres]; rfl⟩

/-- Witness for the amended C9: `./foo` from `/repo/a.spec.ts` does not
exist literally, so the `.ts` fallback gives `/repo/foo.ts`. -/
theorem resolveImportPath_spec_witness :
    resolveImportPath "/repo".toList exRepoC9 "/repo/a.spec.ts".toList
      "./foo".toList = "/repo/foo.ts".toList :=
  ((resolveImportPath_spec "/repo".toList exRepoC9 "/repo/a.spec.ts".toList
      "./foo".toList).1 (by decide)).trans (by decide)

/-! ## Impact Analyzer (`ImpactAnalyzer.analyzeCommit`) -/

/-- Drop the common leading segments of two segment lists. -/
def dropCommon : List Str → List Str → List Str × List Str
  | a :: as, b :: bs =>
    if a = b then dropCommon as bs else (a :: as, b :: bs)
  | as, bs => (as, bs)

/-- `path.relative(base, p)` for absolute paths: strip the common
prefix, then one `..` per remaining base segment. -/
def pathRelative (base p : Str) : Str :=
  match dropCommon ((splitOnChar '/' base).filter fun s => s ≠ [])
      ((splitOnChar '/' p).filter fun s => s ≠ []) with
  | (bs, ps) => joinSegs (bs.map (fun _ => ['.', '.']) ++ ps)

/-- `ImpactAnalyzer.analyzeTestFile`, with the collaborators as oracles:
`currentContent`/`beforeContent` are what `getFileAtCommit` /
`getFileBeforeCommit` return for this file (`none` when git reports
absence), and `parse` is `TestParser.parseTestFile` applied to a content
string.  The JS truthiness guards `if (content)` are false for both null
and the empty string. -/
def analyzeTestFile (parse : String → List TestInfo)
    (currentContent beforeContent : Option String)
    (changedFile : ChangedFile) : List ImpactResult :=
  if changedFile.changeType = ChangeType.added then
    match currentContent with
    | some c =>
      if c.isEmpty then []
      else (parse c).map fun test =>
        { testName := test.name, filePath := changedFile.path,
          impactType := ImpactType.added }
    | none => []
  else if changedFile.changeType = ChangeType.deleted then
    match beforeContent with
    | some c =>
      if c.isEmpty then []
      else (parse c).map fun test =>
        { testName := test.name, filePath := changedFile.path,
          impactType := ImpactType.removed }
    | none => []
  else
    match beforeContent, currentContent with
    | some b, some c =>
      if b.isEmpty || c.isEmpty then []
      else analyzeModified (parse b) (parse c) changedFile.addedLines
        changedFile.path
    | _, _ => []

/-- `ImpactAnalyzer.analyzeHelperFile`: `parseFile` is
`parseTestFile(testFilePath)` reading the current file from disk. -/
def analyzeHelperFile (repoPath : Str) (entries : List FsTree)
    (imports : Str → List Str) (parseFile : Str → List TestInfo)
    (changedFile : ChangedFile) : List ImpactResult :=
  (findTestFilesImporting repoPath entries imports
      (pathJoin repoPath changedFile.path)).flatMap fun testFilePath =>
    (parseFile testFilePath).map fun test =>
      { testName := test.name,
        filePath := pathRelative repoPath testFilePath,
        impactType := ImpactType.modified,
        isIndirect := some true }

/-- The body of `ImpactAnalyzer.analyzeCommit` once the changed files are
known: partition into test files and helper files, run the direct pass,
then the indirect pass. -/
def analyzeChangedFiles (repoPath : Str) (entries : List FsTree)
    (imports : Str → List Str) (parseFile : Str → List TestInfo)
    (contentAt contentBefore : Str → Option String)
    (parse2 : Str → String → List TestInfo)
    (changedFiles : List ChangedFile) : List ImpactResult :=
  ((changedFiles.filter fun f => isTestFile f.path).flatMap fun tf =>
    analyzeTestFile (parse2 (pathJoin repoPath tf.path)) (contentAt tf.path)
      (contentBefore tf.path) tf) ++
  ((changedFiles.filter fun f =>
      !(isTestFile f.path) && ".ts".toList.isSuffixOf f.path).flatMap
    fun hf => analyzeHelperFile repoPath entries imports parseFile hf)

/-- `ImpactAnalyzer.analyzeCommit`: parse the commit's diff, then run the
two passes over the changed files. -/
def analyzeCommit (repoPath : Str) (entries : List FsTree)
    (imports : Str → List Str) (parseFile : Str → List TestInfo)
    (contentAt contentBefore : Str → Option String)
    (parse2 : Str → String → List TestInfo) (diff : Str) :
    List ImpactResult :=
  analyzeChangedFiles repoPath entries imports parseFile contentAt
    contentBefore parse2 (parseDiff diff)

/-! ### C6: absent content degrades to an empty contribution -/

/-- C6: when the content a changed test file requires is absent (`none`
from the version collaborator) — the new content for an added file, the
old content for a deleted file, either for a modified file — that file
contributes zero results, and dropping it from the changed-file list does
not change the analysis of the remaining files.  Absence is handled by a
total function, never a fatal error. -/
theorem absent_content_skipped (repoPath : Str) (entries : List FsTree)
    (imports : Str → List Str) (parseFile : Str → List TestInfo)
    (contentAt contentBefore : Str → Option String)
    (parse2 : Str → String → List TestInfo)
    (l₁ l₂ : List ChangedFile) (cf : ChangedFile)
    (htest : isTestFile cf.path = true)
    (habsent :
      (cf.changeType = ChangeType.added ∧ contentAt cf.path = none) ∨
      (cf.changeType = ChangeType.deleted ∧ contentBefore cf.path = none) ∨
      (cf.changeType = ChangeType.modified ∧
        (contentAt cf.path = none ∨ contentBefore cf.path = none))) :
    analyzeTestFile (parse2 (pathJoin repoPath cf.path)) (contentAt cf.path)
        (contentBefore cf.path) cf = [] ∧
    analyzeChangedFiles repoPath entries imports parseFile contentAt
        contentBefore parse2 (l₁ ++ cf :: l₂) =
      analyzeChangedFiles repoPath entries imports parseFile contentAt
        contentBefore parse2 (l₁ ++ l₂) := by
  have hzero : analyzeTestFile (parse2 (pathJoin repoPath cf.path))
      (contentAt cf.path) (contentBefore cf.path) cf = [] := by
    unfold analyzeTestFile
    rcases habsent with ⟨hty, hnone⟩ | ⟨hty, hnone⟩ | ⟨hty, hor⟩
    · rw [if_pos hty, hnone]
    · rw [if_neg (by rw [hty]; intro h; exact ChangeType.noConfusion h),
        if_pos hty, hnone]
    · rw [if_neg (by rw [hty]; intro h; exact ChangeType.noConfusion h),
        if_neg (by rw [hty]; intro h; exact ChangeType.noConfusion h)]
      cases hc : contentAt cf.path with
      | none =>
        cases hb : contentBefore cf.path with
        | none => rfl
        | some b => rfl
      | some c =>
        cases hb : contentBefore cf.path with
        | none => rfl
        | some b =>
          rcases hor with hnone | hnone
          · exact absurd (hnone.symm.trans hc) (by simp)
          · exact absurd (hnone.symm.trans hb) (by simp)
  refine ⟨hzero, ?_⟩
  unfold analyzeChangedFiles
  rw [List.filter_append, List.filter_append, List.filter_append,
    List.filter_append,
    List.filter_cons_of_pos (p := fun f => isTestFile f.path) (a := cf)
      (l := l₂) htest,
    List.filter_cons_of_neg (p := fun f =>
      !(isTestFile f.path) && ".ts".toList.isSuffixOf f.path) (a := cf)
      (l := l₂) (by simp [htest]),
    List.flatMap_append, List.flatMap_append, List.flatMap_cons, hzero]
  simp

/-- Witness for C6: an added spec file whose new content git cannot
produce contributes nothing. -/
theorem absent_content_skipped_witness :
    analyzeTestFile (fun _ => []) none none
      { path := "a.spec.ts".toList, changeType := ChangeType.added,
        addedLines := [1], deletedLines := [] } = [] :=
  (absent_content_skipped "/repo".toList [] (fun _ => []) (fun _ => [])
    (fun _ => none) (fun _ => none) (fun _ _ => []) [] []
    { path := "a.spec.ts".toList, changeType := ChangeType.added,
      addedLines := [1], deletedLines := [] }
    (by decide) (Or.inl ⟨rfl, rfl⟩)).1

/-! ### C8: the isIndirect and impactType flags of the two passes -/

theorem addedPass_isIndirect {bt ct : List TestInfo} {al : List Nat}
    {p : Str} {r : ImpactResult} (h : r ∈ addedPass bt ct al p) :
    r.isIndirect = none := by
  unfold addedPass at h
  rw [List.mem_filterMap] at h
  obtain ⟨u, hu, he⟩ := h
  by_cases h1 : (bt.any fun b => b.name == u.name) = true
  · rw [if_neg (by simp [h1])] at he
    exact absurd he (by simp)
  · have h1' := Bool.eq_false_iff.mpr h1
    rw [if_pos (by simp [h1']), if_pos (by simp [h1'])] at he
    obtain rfl := Option.some_injective _ he
    rfl

theorem removedPass_isIndirect {bt ct : List TestInfo} {p : Str}
    {r : ImpactResult} (h : r ∈ removedPass bt ct p) :
    r.isIndirect = none := by
  unfold removedPass at h
  rw [List.mem_filterMap] at h
  obtain ⟨u, hu, he⟩ := h
  by_cases h1 : (ct.any fun c => c.name == u.name) = true
  · rw [if_neg (by simp [h1])] at he
    exact absurd he (by simp)
  · rw [if_pos (by simp [Bool.eq_false_iff.mpr h1])] at he
    obtain rfl := Option.some_injective _ he
    rfl

theorem analyzeModified_isIndirect {bt ct : List TestInfo} {al : List Nat}
    {p : Str} {r : ImpactResult} (h : r ∈ analyzeModified bt ct al p) :
    r.isIndirect = none := by
  rw [analyzeModified, foldl_modifiedStep_mem] at h
  rcases h with h | ⟨u, -, -, -, -, rfl⟩
  · rcases List.mem_append.mp h with h | h
    · exact addedPass_isIndirect h
    · exact removedPass_isIndirect h
  · rfl

/-- C8: `analyzeCommit` is the direct pass followed by the indirect pass;
every result of the helper-file (indirect) pass has impact type modified
and `isIndirect` set to true, and no result of the test-file (direct)
pass ever sets `isIndirect` (the field stays absent). -/
theorem direct_indirect_flags (repoPath : Str) (entries : List FsTree)
    (imports : Str → List Str) (parseFile : Str → List TestInfo)
    (contentAt contentBefore : Str → Option String)
    (parse2 : Str → String → List TestInfo) (diff : Str) :
    analyzeCommit repoPath entries imports parseFile contentAt
        contentBefore parse2 diff =
      (((parseDiff diff).filter fun f => isTestFile f.path).flatMap
        fun tf => analyzeTestFile (parse2 (pathJoin repoPath tf.path))
          (contentAt tf.path) (contentBefore tf.path) tf) ++
      (((parseDiff diff).filter fun f =>
          !(isTestFile f.path) && ".ts".toList.isSuffixOf f.path).flatMap
        fun hf => analyzeHelperFile repoPath entries imports parseFile hf) ∧
    (∀ (parse : String → List TestInfo) (cur bef : Option String)
        (cf : ChangedFile), ∀ r ∈ analyzeTestFile parse cur bef cf,
        r.isIndirect = none) ∧
    (∀ cf : ChangedFile,
      ∀ r ∈ analyzeHelperFile repoPath entries imports parseFile cf,
        r.impactType = ImpactType.modified ∧ r.isIndirect = some true) := by
  refine ⟨rfl, ?_, ?_⟩
  · intro parse cur bef cf r hr
    unfold analyzeTestFile at hr
    split at hr
    · split at hr
      · split at hr
        · exact absurd hr (List.not_mem_nil r)
        · obtain ⟨t, -, rfl⟩ := List.mem_map.mp hr
          rfl
      · exact absurd hr (List.not_mem_nil r)
    · split at hr
      · split at hr
        · split at hr
          · exact absurd hr (List.not_mem_nil r)
          · obtain ⟨t, -, rfl⟩ := List.mem_map.mp hr
            rfl
        · exact absurd hr (List.not_mem_nil r)
      · split at hr
        · split at hr
          · exact absurd hr (List.not_mem_nil r)
          · exact analyzeModified_isIndirect hr
        · exact absurd hr (List.not_mem_nil r)
  · intro cf r hr
    unfold analyzeHelperFile at hr
    rw [List.mem_flatMap] at hr
    obtain ⟨tf, -, hr⟩ := hr
    obtain ⟨t, -, rfl⟩ := List.mem_map.mp hr
    exact ⟨rfl, rfl⟩

end GitImpact
